import Mathlib

/-!
Shallow embedding of the SEAL homomorphic `Evaluator`
(`native/src/seal/evaluator.cpp`), together with theorems checking the
natural-language specification of that file against the code.

Conventions of the embedding:

* Polynomials in RNS form are nested lists of natural numbers:
  a `Poly` is one RNS component (`N` coefficients modulo one prime), an
  `RnsPoly` is the list of components of one ciphertext polynomial.
* Machine integers become `Nat`; modular reductions are explicit `% q`.
  The C++ overflow guards (`product_fits_in`, `add_safe`, `sub_safe`) and
  the 128-bit lazy-reduction counter of the key-switch loop exist only to
  keep machine arithmetic in range; unbounded `Nat` arithmetic makes them
  vacuous, and they are elided with a comment at the point of use.
* The `double` fields (`scale`) become exact rationals.
* Fallible operations return `Except EvalError`; a C++ `throw` of
  `invalid_argument` / `logic_error` / `out_of_range` becomes an `error`
  of the corresponding constructor, and in-place mutation becomes a
  returned ciphertext value.
* External collaborators that `evaluator.cpp` only calls (NTT transforms,
  the RNS tool conversions, the Galois permutation tables, the scaling
  variant of plain addition) are function-valued fields of the context
  data, carried through the evaluator untouched, exactly as the evaluator
  itself treats them.
-/

namespace SealEval

/-- One RNS component of a polynomial: the list of its coefficients
modulo one prime. -/
abbrev Poly := List Nat

/-- One ciphertext polynomial in RNS form: one `Poly` per prime of the
current coefficient modulus. -/
abbrev RnsPoly := List Poly

/-- Normalize a coefficient list to the fixed buffer length `n` of the
C++ allocation it models: keep the first `n` entries, pad with zeros. -/
def fitPoly (n : Nat) (p : Poly) : Poly :=
  p.take n ++ List.replicate (n - p.length) 0

/-- Normalize an RNS polynomial to `k` components of `n` coefficients
each, the shape of a `coeff_count × coeff_modulus_count` buffer. -/
def fitRns (k n : Nat) (p : RnsPoly) : RnsPoly :=
  (List.range k).map fun i => fitPoly n (p.getD i [])

/-- An all-zero RNS polynomial of `k` components with `n` coefficients,
the result of `allocate_zero_poly`. -/
def zeroRns (k n : Nat) : RnsPoly :=
  List.replicate k (List.replicate n 0)

/-- Modelled from the spec: `add_poly_poly_coeffmod` from
`util/polyarithsmallmod` (not under `src/`) adds two coefficient arrays
componentwise modulo a prime. -/
def addPolyCoeffmod (q : Nat) (a b : Poly) : Poly :=
  List.zipWith (fun x y => (x + y) % q) a b

/-- Modelled from the spec: `sub_poly_poly_coeffmod` (not under `src/`)
subtracts componentwise modulo a prime; on reduced inputs
`(x + q - y) % q` is the difference mod `q`. -/
def subCoeff (q x y : Nat) : Nat :=
  (x + (q - y % q)) % q

/-- Componentwise modular subtraction of two coefficient arrays. -/
def subPolyCoeffmod (q : Nat) (a b : Poly) : Poly :=
  List.zipWith (subCoeff q) a b

/-- Modelled from the spec: `negate_poly_coeffmod` (not under `src/`)
maps a reduced coefficient `x` to `q - x` when `x ≠ 0` and to `0`
otherwise. -/
def negCoeff (q x : Nat) : Nat :=
  if x % q = 0 then 0 else q - x % q

/-- Componentwise modular negation of a coefficient array. -/
def negPolyCoeffmod (q : Nat) (a : Poly) : Poly :=
  a.map (negCoeff q)

/-- Modelled from the spec: `dyadic_product_coeffmod` (not under `src/`)
multiplies two coefficient arrays componentwise modulo a prime. -/
def dyadicPoly (q : Nat) (a b : Poly) : Poly :=
  List.zipWith (fun x y => x * y % q) a b

/-- Modelled from the spec: `multiply_poly_scalar_coeffmod` (not under
`src/`) multiplies every coefficient by a scalar modulo a prime. -/
def mulScalarPoly (q t : Nat) (a : Poly) : Poly :=
  a.map fun x => x * t % q

/-- Componentwise RNS addition over a base given as a prime list. -/
def rnsAdd (qs : List Nat) (a b : RnsPoly) : RnsPoly :=
  List.zipWith3 addPolyCoeffmod qs a b

/-- Componentwise RNS subtraction over a base given as a prime list. -/
def rnsSub (qs : List Nat) (a b : RnsPoly) : RnsPoly :=
  List.zipWith3 subPolyCoeffmod qs a b

/-- Componentwise RNS negation over a base given as a prime list. -/
def rnsNeg (qs : List Nat) (a : RnsPoly) : RnsPoly :=
  List.zipWith negPolyCoeffmod qs a

/-- Componentwise RNS dyadic product over a base given as a prime list. -/
def rnsDyadic (qs : List Nat) (a b : RnsPoly) : RnsPoly :=
  List.zipWith3 dyadicPoly qs a b

/-- The scheme tag of `EncryptionParameters` (`scheme_type`). -/
inductive SchemeType where
  | BFV
  | CKKS
  | none
deriving DecidableEq, Repr

/-- The two C++ exception kinds the evaluator raises, plus
`std::out_of_range` used by `switch_key_inplace`. -/
inductive EvalError where
  | invalidArgument
  | logicError
  | outOfRange
deriving DecidableEq, Repr

/-- One parameter point of the modulus switching chain
(`SEALContext::ContextData`).  The per-point collaborators that live
outside `evaluator.cpp` (NTT tables, RNS tool, Galois tool, scaling
variant) are function-valued fields. -/
structure ContextData where
  scheme : SchemeType
  coeffModulus : List Nat
  polyModulusDegree : Nat
  plainModulus : Nat
  usingBatching : Bool
  baseBsk : List Nat
  fastbconvMTilde : RnsPoly → RnsPoly
  smMrq : RnsPoly → RnsPoly
  fastFloor : RnsPoly → RnsPoly
  fastbconvSk : RnsPoly → RnsPoly
  divideRoundQLast : RnsPoly → RnsPoly
  divideRoundQLastNtt : RnsPoly → RnsPoly
  nttQ : Nat → Poly → Poly
  inttQ : Nat → Poly → Poly
  nttBsk : Nat → Poly → Poly
  inttBsk : Nat → Poly → Poly
  applyGaloisFn : Nat → Nat → Poly → Poly
  applyGaloisNttFn : Nat → Nat → Poly → Poly
  getEltFromStep : Int → Nat
  invQLastModQ : List Nat
  multiplyAddPlainScaling : List Poly → RnsPoly → RnsPoly
  multiplySubPlainScaling : List Poly → RnsPoly → RnsPoly

/-- The SEAL context: the chain of parameter points, identified here by
their position (the embedding of `parms_id`), the id of the key
parameter point, and the `using_keyswitching` qualifier. -/
structure Context where
  chain : List ContextData
  keyParmsId : Nat
  usingKeyswitching : Bool

/-- Embedding of `SEALContext::get_context_data`: resolve a `parms_id`
to its parameter point, `none` when the id is unknown. -/
def Context.getContextData (ctx : Context) (parmsId : Nat) : Option ContextData :=
  ctx.chain.get? parmsId

/-- Embedding of `first_context_data()->parms().scheme()`, the scheme
tag the dispatching operations branch on. -/
def Context.firstScheme (ctx : Context) : SchemeType :=
  match ctx.chain with
  | [] => SchemeType.none
  | cd :: _ => cd.scheme

/-- Embedding of `SEALContext::last_parms_id`: the id of the final point
of the modulus switching chain. -/
def Context.lastParmsId (ctx : Context) : Nat :=
  ctx.chain.length - 1

/-- A ciphertext: the dynamic array of RNS polynomials together with its
metadata (`parms_id`, `is_ntt_form`, `scale`). -/
structure Ciphertext where
  polys : List RnsPoly
  parmsId : Nat
  isNttForm : Bool
  scale : ℚ
deriving DecidableEq, Repr

/-- A plaintext: its data (a coefficient polynomial, stored in RNS shape
when in NTT form, as a single component otherwise) and metadata. -/
structure Plaintext where
  data : List Poly
  parmsId : Nat
  isNttForm : Bool
  scale : ℚ
deriving DecidableEq, Repr

/-- Key-switching keys (`KSwitchKeys`): a list, indexed by key power or
Galois element, of key vectors; each key vector holds one ciphertext-like
key per decomposition prime, given as `key_component_count` RNS
polynomials over the key primes.  `RelinKeys` and `GaloisKeys` are this
type with their respective index maps. -/
structure KSwitchKeys where
  parmsId : Nat
  data : List (List (List (List Poly)))
deriving DecidableEq, Repr

/-- Decidable equality of evaluator results, used to evaluate witness
instances. -/
instance {ε α : Type} [DecidableEq ε] [DecidableEq α] : DecidableEq (Except ε α) :=
  fun a b =>
    match a, b with
    | Except.ok x, Except.ok y =>
      if h : x = y then isTrue (by rw [h]) else isFalse (by simp [h])
    | Except.error e, Except.error f =>
      if h : e = f then isTrue (by rw [h]) else isFalse (by simp [h])
    | Except.ok _, Except.error _ => isFalse (by simp)
    | Except.error _, Except.ok _ => isFalse (by simp)

/-- Embedding of `GaloisKeys::get_index`: `(galois_elt - 1) >> 1`. -/
def galoisGetIndex (galoisElt : Nat) : Nat :=
  (galoisElt - 1) / 2

/-- Embedding of `GaloisKeys::has_key`: the element's index is within
the data list and its key vector is non-empty. -/
def KSwitchKeys.hasKey (keys : KSwitchKeys) (galoisElt : Nat) : Bool :=
  decide (galoisGetIndex galoisElt < keys.data.length) &&
    !(keys.data.getD (galoisGetIndex galoisElt) []).isEmpty

/-- Modelled from the spec: `is_metadata_valid_for` plus
`is_buffer_valid` (valcheck sources not under `src/`): the `parms_id`
resolves in the context, the size is at least 2, and the buffer has the
RNS shape of its parameter point. -/
def ciphertextValid (ctx : Context) (c : Ciphertext) : Bool :=
  match ctx.getContextData c.parmsId with
  | Option.none => false
  | Option.some cd =>
    decide (2 ≤ c.polys.length) &&
      c.polys.all fun p =>
        decide (p.length = cd.coeffModulus.length) &&
          p.all fun comp => decide (comp.length = cd.polyModulusDegree)

/-- Modelled from the spec: plaintext validity (valcheck sources not
under `src/`): an NTT-form plaintext resolves its `parms_id` and has the
RNS shape of that point; a non-NTT plaintext is a single coefficient
polynomial. -/
def plaintextValid (ctx : Context) (p : Plaintext) : Bool :=
  if p.isNttForm then
    match ctx.getContextData p.parmsId with
    | Option.none => false
    | Option.some cd =>
      decide (p.data.length = cd.coeffModulus.length) &&
        p.data.all fun comp => decide (comp.length = cd.polyModulusDegree)
  else
    decide (p.data.length = 1)

/-- Modelled from the spec: `util::are_close` on `double` scales,
embedded as closeness of exact rationals with the machine-epsilon
tolerance pattern of the source. -/
def areClose (a b : ℚ) : Bool :=
  decide (|a - b| ≤ 1 / 2 ^ 52 * max |a| |b|)

/-- Fuel-driven floor of the base-2 logarithm of a natural number
(`0` on inputs below 2); structural so that the kernel can evaluate it. -/
def natLog2Fuel : Nat → Nat → Nat
  | 0, _ => 0
  | fuel + 1, n => if n ≤ 1 then 0 else natLog2Fuel fuel (n / 2) + 1

/-- Significant bit count of a natural number, the value of
`total_coeff_modulus_bit_count` for the product of the current primes. -/
def significantBitCount (n : Nat) : Nat :=
  if n = 0 then 0 else natLog2Fuel n n + 1

/-- Embedding of `ContextData::total_coeff_modulus_bit_count`. -/
def totalCoeffModulusBitCount (cd : ContextData) : Nat :=
  significantBitCount cd.coeffModulus.prod

/-- Floor of the base-2 logarithm of a rational at least 1. -/
def floorLog2Ge1 (r : ℚ) : Nat :=
  natLog2Fuel r.floor.toNat r.floor.toNat

/-- Embedding of `static_cast<int>(log2(x))` on a positive rational:
truncation toward zero of the real base-2 logarithm. -/
def castIntLog2 (q : ℚ) : Int :=
  if 1 ≤ q then (floorLog2Ge1 q : Int) else -(floorLog2Ge1 q⁻¹ : Int)

/-- Embedding of `Evaluator::sub_inplace` (evaluator.cpp:187).  After
validation the overlap of the two ciphertexts is subtracted
componentwise modulo each prime, and when the second operand is larger
its tail is negated into the corresponding result polynomials. -/
def subInplace (ctx : Context) (c1 c2 : Ciphertext) : Except EvalError Ciphertext :=
  if ¬ ciphertextValid ctx c1 then .error .invalidArgument
  else if ¬ ciphertextValid ctx c2 then .error .invalidArgument
  else if c1.parmsId ≠ c2.parmsId then .error .invalidArgument
  else if c1.isNttForm ≠ c2.isNttForm then .error .invalidArgument
  else if ¬ areClose c1.scale c2.scale then .error .invalidArgument
  else
    match ctx.getContextData c1.parmsId with
    | Option.none => .error .invalidArgument
    | Option.some cd =>
      -- The `product_fits_in(max_count, coeff_count)` overflow guard is
      -- vacuous over Nat and elided.
      let overlap := List.zipWith (rnsSub cd.coeffModulus) c1.polys c2.polys
      let tail :=
        if c1.polys.length < c2.polys.length then
          (c2.polys.drop c1.polys.length).map (rnsNeg cd.coeffModulus)
        else
          c1.polys.drop c2.polys.length
      .ok { c1 with polys := overlap ++ tail }

/-- Embedding of the `behz_extend_base_convert_to_ntt` lambda of
`Evaluator::bfv_multiply` (evaluator.cpp:376) and `bfv_square`: copy the
base-q polynomial and transform it to NTT form, and in parallel extend
to base Bsk via `fastbconv_m_tilde` then `sm_mrq` and transform the
result to NTT form. -/
def behzExtendBaseConvertToNtt (cd : ContextData) (p : RnsPoly) : RnsPoly × RnsPoly :=
  let n := cd.polyModulusDegree
  let pq := (List.range cd.coeffModulus.length).map fun i =>
    fitPoly n (cd.nttQ i (p.getD i []))
  let temp := cd.fastbconvMTilde p
  let pBsk0 := cd.smMrq temp
  let pBsk := (List.range cd.baseBsk.length).map fun i =>
    fitPoly n (cd.nttBsk i (pBsk0.getD i []))
  (pq, pBsk)

/-- Embedding of BEHZ step (4) of `Evaluator::bfv_multiply`
(evaluator.cpp:444) and of the CKKS dyadic product loop
(evaluator.cpp:604): for every output index accumulate, into an
`allocate_zero_poly` buffer, the dyadic products of the components of
the two inputs whose indices sum to it, the first input ascending and
the second descending. -/
def dyadicConvolution (qs : List Nat) (n : Nat) (e1 e2 : List RnsPoly)
    (destSize : Nat) : List RnsPoly :=
  (List.range destSize).map fun d =>
    let curr1Last := min d (e1.length - 1)
    let curr2First := min d (e2.length - 1)
    let curr1First := d - curr2First
    let steps := curr1Last - curr1First + 1
    (List.range steps).foldl
      (fun acc m =>
        rnsAdd qs
          (rnsDyadic qs (e1.getD (curr1First + m) []) (e2.getD (curr2First - m) []))
          acc)
      (zeroRns qs.length n)

/-- Embedding of BEHZ steps (5)-(8) of `Evaluator::bfv_multiply`
(evaluator.cpp:505) and `bfv_square`: inverse NTT both bases, multiply
by the plain modulus, `fast_floor` the combined `q ∪ Bsk`
representation, and convert back to base q with `fastbconv_sk`. -/
def behzStepsFiveToEight (cd : ContextData) (dq dBsk : RnsPoly) : RnsPoly :=
  let n := cd.polyModulusDegree
  let t := cd.plainModulus
  let u := (List.range cd.coeffModulus.length).map fun i =>
    fitPoly n (cd.inttQ i (dq.getD i []))
  let v := (List.range cd.baseBsk.length).map fun i =>
    fitPoly n (cd.inttBsk i (dBsk.getD i []))
  let tq := List.zipWith (fun q p => mulScalarPoly q t p) cd.coeffModulus u
  let tb := List.zipWith (fun q p => mulScalarPoly q t p) cd.baseBsk v
  let tempBsk := cd.fastFloor (tq ++ tb)
  fitRns cd.coeffModulus.length n (cd.fastbconvSk tempBsk)

/-- Embedding of `Evaluator::bfv_multiply` (evaluator.cpp:311): the
BEHZ RNS multiplication of two non-NTT BFV ciphertexts. -/
def bfvMultiply (ctx : Context) (c1 c2 : Ciphertext) : Except EvalError Ciphertext :=
  if c1.isNttForm || c2.isNttForm then .error .invalidArgument
  else
    match ctx.getContextData c1.parmsId with
    | Option.none => .error .invalidArgument
    | Option.some cd =>
      let destSize := c1.polys.length + c2.polys.length - 1
      -- The `product_fits_in` overflow guard is vacuous over Nat.
      let e1 := c1.polys.map (behzExtendBaseConvertToNtt cd)
      let e2 := c2.polys.map (behzExtendBaseConvertToNtt cd)
      let convQ := dyadicConvolution cd.coeffModulus cd.polyModulusDegree
        (e1.map Prod.fst) (e2.map Prod.fst) destSize
      let convB := dyadicConvolution cd.baseBsk cd.polyModulusDegree
        (e1.map Prod.snd) (e2.map Prod.snd) destSize
      let outs := (List.zip convQ convB).map fun db =>
        behzStepsFiveToEight cd db.1 db.2
      .ok { c1 with polys := outs }

/-- Embedding of `Evaluator::ckks_multiply` (evaluator.cpp:556): the
dyadic convolution of two NTT-form CKKS ciphertexts, with the product
scale checked against the total coefficient modulus bit count and
written to the result. -/
def ckksMultiply (ctx : Context) (c1 c2 : Ciphertext) : Except EvalError Ciphertext :=
  if ¬ (c1.isNttForm && c2.isNttForm) then .error .invalidArgument
  else
    match ctx.getContextData c1.parmsId with
    | Option.none => .error .invalidArgument
    | Option.some cd =>
      let newScale := c1.scale * c2.scale
      if newScale ≤ 0 ∨ (totalCoeffModulusBitCount cd : Int) ≤ castIntLog2 newScale then
        .error .invalidArgument
      else
        let destSize := c1.polys.length + c2.polys.length - 1
        let outs := dyadicConvolution cd.coeffModulus cd.polyModulusDegree
          c1.polys c2.polys destSize
        .ok { c1 with polys := outs, scale := newScale }

/-- Embedding of the `behz_ciphertext_square` lambda of
`Evaluator::bfv_square` (evaluator.cpp:808) and of the CKKS squaring
kernel: for a size-2 input compute `c0·c0`, `2·c0·c1` (as a dyadic
product added to itself) and `c1·c1`. -/
def behzCiphertextSquare (qs : List Nat) (e : List RnsPoly) : List RnsPoly :=
  let x0 := e.getD 0 []
  let x1 := e.getD 1 []
  [rnsDyadic qs x0 x0,
   rnsAdd qs (rnsDyadic qs x1 x0) (rnsDyadic qs x1 x0),
   rnsDyadic qs x1 x1]

/-- Embedding of `Evaluator::bfv_square` (evaluator.cpp:682): sizes
other than 2 delegate to `bfv_multiply(c, c)`; size 2 runs the BEHZ
pipeline with the Karatsuba-style squaring kernel in step (4). -/
def bfvSquare (ctx : Context) (c : Ciphertext) : Except EvalError Ciphertext :=
  if c.isNttForm then .error .invalidArgument
  else
    match ctx.getContextData c.parmsId with
    | Option.none => .error .invalidArgument
    | Option.some cd =>
      if c.polys.length ≠ 2 then bfvMultiply ctx c c
      else
        let e := c.polys.map (behzExtendBaseConvertToNtt cd)
        let sqQ := behzCiphertextSquare cd.coeffModulus (e.map Prod.fst)
        let sqB := behzCiphertextSquare cd.baseBsk (e.map Prod.snd)
        let outs := (List.zip sqQ sqB).map fun db =>
          behzStepsFiveToEight cd db.1 db.2
        .ok { c with polys := outs }

/-- Embedding of `Evaluator::ckks_square` (evaluator.cpp:898): sizes
other than 2 delegate to `ckks_multiply(c, c)`; size 2 squares with the
`c0²`, `2·c0·c1`, `c1²` kernel directly in NTT form. -/
def ckksSquare (ctx : Context) (c : Ciphertext) : Except EvalError Ciphertext :=
  if ¬ c.isNttForm then .error .invalidArgument
  else
    match ctx.getContextData c.parmsId with
    | Option.none => .error .invalidArgument
    | Option.some cd =>
      if c.polys.length ≠ 2 then ckksMultiply ctx c c
      else
        let newScale := c.scale * c.scale
        if newScale ≤ 0 ∨ (totalCoeffModulusBitCount cd : Int) ≤ castIntLog2 newScale then
          .error .invalidArgument
        else
          let outs := behzCiphertextSquare cd.coeffModulus c.polys
          .ok { c with polys := outs, scale := newScale }

/-- Embedding of `Evaluator::multiply_inplace` (evaluator.cpp:272):
validate both operands, require matching `parms_id`, and dispatch on the
scheme of the first context data. -/
def multiplyInplace (ctx : Context) (c1 c2 : Ciphertext) : Except EvalError Ciphertext :=
  if ¬ ciphertextValid ctx c1 then .error .invalidArgument
  else if ¬ ciphertextValid ctx c2 then .error .invalidArgument
  else if c1.parmsId ≠ c2.parmsId then .error .invalidArgument
  else
    match ctx.firstScheme with
    | SchemeType.BFV => bfvMultiply ctx c1 c2
    | SchemeType.CKKS => ckksMultiply ctx c1 c2
    | SchemeType.none => .error .invalidArgument

/-- Embedding of `Evaluator::square_inplace` (evaluator.cpp:651):
validate the operand and dispatch on the scheme of the first context
data. -/
def squareInplace (ctx : Context) (c : Ciphertext) : Except EvalError Ciphertext :=
  if ¬ ciphertextValid ctx c then .error .invalidArgument
  else
    match ctx.firstScheme with
    | SchemeType.BFV => bfvSquare ctx c
    | SchemeType.CKKS => ckksSquare ctx c
    | SchemeType.none => .error .invalidArgument

/-- The dot product of step 3 of `Evaluator::switch_key_inplace`
(evaluator.cpp:2411): for RNS index `j` and key component `kc`,
accumulate the products of the NTT operands with the key polynomials at
the key prime `key_index` and Barrett-reduce the result.  The lazy
reduction counter of the source only prevents 128-bit overflow; over
unbounded Nat the intermediate reductions are residue-neutral, so the
exact sum followed by one final reduction is the same value. -/
def switchKeyProdSlot (cd keyCd : ContextData) (target tTarget : RnsPoly)
    (keyVector : List (List (List Poly))) (j kc : Nat) : Poly :=
  let n := cd.polyModulusDegree
  let k := cd.coeffModulus.length
  let keyModulus := keyCd.coeffModulus
  let keyIndex := if j = k then keyModulus.length - 1 else j
  let qk := keyModulus.getD keyIndex 0
  let acc := (List.range k).foldl
    (fun acc i =>
      let tOperand :=
        if cd.scheme = SchemeType.CKKS ∧ i = j then fitPoly n (target.getD i [])
        else
          let tv := tTarget.getD i []
          let tRed := if keyModulus.getD i 0 ≤ qk then tv else tv.map (· % qk)
          fitPoly n (keyCd.nttQ keyIndex tRed)
      let keyPoly := fitPoly n (((keyVector.getD i []).getD kc []).getD keyIndex [])
      List.zipWith (· + ·) (List.zipWith (· * ·) tOperand keyPoly) acc)
    (List.replicate n 0)
  acc.map (· % qk)

/-- The modulus-switch step 4 of `Evaluator::switch_key_inplace`
(evaluator.cpp:2509): remove the special-prime component with rounding
and add the scaled result onto one ciphertext component. -/
def switchKeyUpdateComp (cd keyCd : ContextData) (target tTarget : RnsPoly)
    (keyVector : List (List (List Poly))) (kc : Nat) (poly : RnsPoly) : RnsPoly :=
  let n := cd.polyModulusDegree
  let k := cd.coeffModulus.length
  let keyModulus := keyCd.coeffModulus
  let qLast := keyModulus.getD (keyModulus.length - 1) 0
  let half := qLast / 2
  let tLast0 := fitPoly n (keyCd.inttQ (keyModulus.length - 1)
    (switchKeyProdSlot cd keyCd target tTarget keyVector k kc))
  let tLast := tLast0.map fun x => (x + half) % qLast
  (List.range k).map fun j =>
    let qj := keyModulus.getD j 0
    let fix := half % qj
    let tNtt0 := tLast.map (· % qj)
    let tNtt1 := tNtt0.map fun x => (x + (qj - fix)) % qj
    let tElse0 := switchKeyProdSlot cd keyCd target tTarget keyVector j kc
    let tElse1 := if cd.scheme = SchemeType.BFV then fitPoly n (keyCd.inttQ j tElse0)
      else tElse0
    let tNtt2 := if cd.scheme = SchemeType.CKKS then fitPoly n (keyCd.nttQ j tNtt1)
      else tNtt1
    let diff := List.zipWith (subCoeff qj) tElse1 tNtt2
    let factor := keyCd.invQLastModQ.getD j 0
    let scaled := diff.map fun x => x * factor % qj
    List.zipWith (fun x y => (x + y) % qj) scaled (poly.getD j [])

/-- Embedding of `Evaluator::switch_key_inplace` (evaluator.cpp:2316):
validate, bring the target polynomial into integer form, multiply it
against the selected key vector with accumulation per key prime, switch
the special prime away, and add the two resulting polynomials onto the
first two ciphertext components. -/
def switchKeyInplace (ctx : Context) (c : Ciphertext) (target : RnsPoly)
    (kswitchKeys : KSwitchKeys) (kswitchKeysIndex : Nat) : Except EvalError Ciphertext :=
  match ctx.getContextData c.parmsId, ctx.getContextData ctx.keyParmsId with
  | Option.some cd, Option.some keyCd =>
    if ¬ ciphertextValid ctx c then .error .invalidArgument
    -- A null `target` iterator is modelled by the empty list.
    else if target.isEmpty then .error .invalidArgument
    else if ¬ ctx.usingKeyswitching then .error .logicError
    else if kswitchKeys.parmsId ≠ ctx.keyParmsId then .error .invalidArgument
    else if kswitchKeys.data.length ≤ kswitchKeysIndex then .error .outOfRange
    else if cd.scheme = SchemeType.BFV ∧ c.isNttForm then .error .invalidArgument
    else if cd.scheme = SchemeType.CKKS ∧ ¬ c.isNttForm then .error .invalidArgument
    else
      let n := cd.polyModulusDegree
      let k := cd.coeffModulus.length
      let keyVector := kswitchKeys.data.getD kswitchKeysIndex []
      let keyComponentCount := (keyVector.getD 0 []).length
      let tTarget :=
        if cd.scheme = SchemeType.CKKS then
          (List.range k).map fun i => fitPoly n (keyCd.inttQ i (target.getD i []))
        else fitRns k n target
      let newPolys := (List.range c.polys.length).map fun kc =>
        if kc < keyComponentCount then
          switchKeyUpdateComp cd keyCd target tTarget keyVector kc (c.polys.getD kc [])
        else c.polys.getD kc []
      .ok { c with polys := newPolys }
  | _, _ => .error .invalidArgument

/-- Embedding of `Evaluator::relinearize_internal` (evaluator.cpp:990):
after validation, repeatedly key-switch with the relinearization key for
the current top power, then resize down to the destination size. -/
def relinearizeInternal (ctx : Context) (c : Ciphertext) (relinKeys : KSwitchKeys)
    (destinationSize : Nat) : Except EvalError Ciphertext :=
  if (ctx.getContextData c.parmsId).isNone then .error .invalidArgument
  else if relinKeys.parmsId ≠ ctx.keyParmsId then .error .invalidArgument
  else if destinationSize < 2 ∨ c.polys.length < destinationSize then .error .invalidArgument
  else if relinKeys.data.length < c.polys.length - 2 then .error .invalidArgument
  else if destinationSize = c.polys.length then .ok c
  else
    let target := c.polys.getD (c.polys.length - 1) []
    match (List.range (c.polys.length - destinationSize)).foldlM
      (fun (st : Ciphertext × Nat) _ =>
        -- RelinKeys::get_index(encrypted_size - 1) = encrypted_size - 3
        match switchKeyInplace ctx st.1 target relinKeys (st.2 - 1 - 2) with
        | Except.error e => (Except.error e : Except EvalError (Ciphertext × Nat))
        | Except.ok cNext => Except.ok (cNext, st.2 - 1))
      (c, c.polys.length) with
    | .error e => .error e
    | .ok st => .ok { st.1 with polys := st.1.polys.take destinationSize }

/-- Embedding of `Evaluator::relinearize_inplace`: relinearize down to
size 2. -/
def relinearizeInplace (ctx : Context) (c : Ciphertext) (relinKeys : KSwitchKeys) :
    Except EvalError Ciphertext :=
  relinearizeInternal ctx c relinKeys 2

/-- Embedding of `Evaluator::mod_switch_scale_to_next`
(evaluator.cpp:1049): divide-and-round away the last prime of every
polynomial, copy the surviving components to the next parameter point,
and, when the next point uses CKKS, divide the scale by the dropped
prime; otherwise the destination scale is not written. -/
def modSwitchScaleToNext (ctx : Context) (encrypted destination : Ciphertext) :
    Except EvalError Ciphertext :=
  match ctx.getContextData encrypted.parmsId with
  | Option.none => .error .invalidArgument
  | Option.some cd =>
    if cd.scheme = SchemeType.BFV ∧ encrypted.isNttForm then .error .invalidArgument
    else if cd.scheme = SchemeType.CKKS ∧ ¬ encrypted.isNttForm then .error .invalidArgument
    else
      match ctx.getContextData (encrypted.parmsId + 1) with
      | Option.none => .error .invalidArgument
      | Option.some nextCd =>
        let divided :=
          match nextCd.scheme with
          | SchemeType.BFV => Option.some (encrypted.polys.map cd.divideRoundQLast)
          | SchemeType.CKKS => Option.some (encrypted.polys.map cd.divideRoundQLastNtt)
          | SchemeType.none => Option.none
        match divided with
        | Option.none => .error .invalidArgument
        | Option.some polys =>
          let nextK := nextCd.coeffModulus.length
          let outPolys := polys.map (fitRns nextK nextCd.polyModulusDegree)
          let base := { destination with
            polys := outPolys
            parmsId := encrypted.parmsId + 1
            isNttForm := encrypted.isNttForm }
          if nextCd.scheme = SchemeType.CKKS then
            .ok { base with
              scale := encrypted.scale / (cd.coeffModulus.getLastD 0 : ℚ) }
          else .ok base

/-- Embedding of `Evaluator::rescale_to_next` (evaluator.cpp:1313):
validate, reject at the end of the chain, reject BFV, and for CKKS run
the scaling modulus switch. -/
def rescaleToNext (ctx : Context) (encrypted destination : Ciphertext) :
    Except EvalError Ciphertext :=
  if ¬ ciphertextValid ctx encrypted then .error .invalidArgument
  else if ctx.lastParmsId = encrypted.parmsId then .error .invalidArgument
  else
    match ctx.firstScheme with
    | SchemeType.BFV => .error .invalidArgument
    | SchemeType.CKKS => modSwitchScaleToNext ctx encrypted destination
    | SchemeType.none => .error .invalidArgument

/-- Embedding of the first level of `Evaluator::multiply_many`
(evaluator.cpp:1449): multiply adjacent pairs (squaring when the two
operands are the same ciphertext), relinearize each product, and carry
an odd leftover unchanged. -/
def mmFirstLevel (ctx : Context) (relinKeys : KSwitchKeys) :
    List Ciphertext → Except EvalError (List Ciphertext)
  | a :: b :: rest =>
    match (if a = b then squareInplace ctx a else multiplyInplace ctx a b) with
    | .error e => .error e
    | .ok t0 =>
      match relinearizeInplace ctx t0 relinKeys with
      | .error e => .error e
      | .ok t =>
        match mmFirstLevel ctx relinKeys rest with
        | .error e => .error e
        | .ok tail => .ok (t :: tail)
  | l => .ok l

/-- Embedding of the second loop of `Evaluator::multiply_many`
(evaluator.cpp:1469): repeatedly multiply-and-relinearize the two front
elements and append the product at the back until one remains. -/
def mmQueue (ctx : Context) (relinKeys : KSwitchKeys) :
    List Ciphertext → Except EvalError Ciphertext
  | [] => .error .logicError
  | [x] => .ok x
  | a :: b :: rest =>
    match multiplyInplace ctx a b with
    | .error e => .error e
    | .ok t0 =>
      match relinearizeInplace ctx t0 relinKeys with
      | .error e => .error e
      | .ok t => mmQueue ctx relinKeys (rest ++ [t])
termination_by l => l.length
decreasing_by simp [List.length_append]

/-- Embedding of `Evaluator::multiply_many` (evaluator.cpp:1403):
validate, reject any scheme other than BFV with a logic error, return a
singleton input unchanged, and otherwise reduce the vector with a
balanced product tree.  The destination-aliasing check of the source
compares buffer addresses, which distinct vector elements never share;
it has no analogue in the value semantics. -/
def multiplyMany (ctx : Context) (encrypteds : List Ciphertext)
    (relinKeys : KSwitchKeys) : Except EvalError Ciphertext :=
  match encrypteds with
  | [] => .error .invalidArgument
  | c0 :: rest =>
    match ctx.getContextData c0.parmsId with
    | Option.none => .error .invalidArgument
    | Option.some cd =>
      if cd.scheme ≠ SchemeType.BFV then .error .logicError
      else if rest.isEmpty then .ok c0
      else
        match mmFirstLevel ctx relinKeys (c0 :: rest) with
        | .error e => .error e
        | .ok productVec => mmQueue ctx relinKeys productVec

/-- Embedding of `Evaluator::exponentiate_inplace` (evaluator.cpp:1480):
reject exponent 0, return the ciphertext unchanged for exponent 1, and
otherwise call `multiply_many` on a vector of copies. -/
def exponentiateInplace (ctx : Context) (c : Ciphertext) (exponent : Nat)
    (relinKeys : KSwitchKeys) : Except EvalError Ciphertext :=
  if (ctx.getContextData c.parmsId).isNone then .error .invalidArgument
  else if (ctx.getContextData relinKeys.parmsId).isNone then .error .invalidArgument
  else if exponent = 0 then .error .invalidArgument
  else if exponent = 1 then .ok c
  else multiplyMany ctx (List.replicate exponent c) relinKeys

/-- Embedding of `Evaluator::add_plain_inplace` (evaluator.cpp:1513):
after validation, BFV adds the scaling-variant lift of the plaintext
into the first polynomial only, CKKS adds the RNS plaintext into the
first polynomial modulo each prime. -/
def addPlainInplace (ctx : Context) (c : Ciphertext) (p : Plaintext) :
    Except EvalError Ciphertext :=
  if ¬ ciphertextValid ctx c then .error .invalidArgument
  else if ¬ plaintextValid ctx p then .error .invalidArgument
  else
    match ctx.getContextData c.parmsId with
    | Option.none => .error .invalidArgument
    | Option.some cd =>
      if cd.scheme = SchemeType.BFV ∧ c.isNttForm then .error .invalidArgument
      else if cd.scheme = SchemeType.CKKS ∧ ¬ c.isNttForm then .error .invalidArgument
      else if p.isNttForm ≠ c.isNttForm then .error .invalidArgument
      else if c.isNttForm ∧ c.parmsId ≠ p.parmsId then .error .invalidArgument
      else if ¬ areClose c.scale p.scale then .error .invalidArgument
      else
        match cd.scheme with
        | SchemeType.BFV =>
          .ok { c with polys :=
            c.polys.set 0 (cd.multiplyAddPlainScaling p.data (c.polys.getD 0 [])) }
        | SchemeType.CKKS =>
          .ok { c with polys :=
            c.polys.set 0 (rnsAdd cd.coeffModulus (c.polys.getD 0 []) p.data) }
        | SchemeType.none => .error .invalidArgument

/-- Embedding of `Evaluator::sub_plain_inplace` (evaluator.cpp:1591):
identical to `add_plain_inplace` with the subtracting scaling variant
and componentwise modular subtraction. -/
def subPlainInplace (ctx : Context) (c : Ciphertext) (p : Plaintext) :
    Except EvalError Ciphertext :=
  if ¬ ciphertextValid ctx c then .error .invalidArgument
  else if ¬ plaintextValid ctx p then .error .invalidArgument
  else
    match ctx.getContextData c.parmsId with
    | Option.none => .error .invalidArgument
    | Option.some cd =>
      if cd.scheme = SchemeType.BFV ∧ c.isNttForm then .error .invalidArgument
      else if cd.scheme = SchemeType.CKKS ∧ ¬ c.isNttForm then .error .invalidArgument
      else if p.isNttForm ≠ c.isNttForm then .error .invalidArgument
      else if c.isNttForm ∧ c.parmsId ≠ p.parmsId then .error .invalidArgument
      else if ¬ areClose c.scale p.scale then .error .invalidArgument
      else
        match cd.scheme with
        | SchemeType.BFV =>
          .ok { c with polys :=
            c.polys.set 0 (cd.multiplySubPlainScaling p.data (c.polys.getD 0 [])) }
        | SchemeType.CKKS =>
          .ok { c with polys :=
            c.polys.set 0 (rnsSub cd.coeffModulus (c.polys.getD 0 []) p.data) }
        | SchemeType.none => .error .invalidArgument

/-- Embedding of `Evaluator::apply_galois_inplace` (evaluator.cpp:2137):
validate (key presence, odd element below `2N`, size at most 2), apply
the Galois permutation to both polynomials, zero the second, and
key-switch the permuted second polynomial with the Galois key. -/
def applyGaloisInplace (ctx : Context) (c : Ciphertext) (galoisElt : Nat)
    (galoisKeys : KSwitchKeys) : Except EvalError Ciphertext :=
  if ¬ ciphertextValid ctx c then .error .invalidArgument
  else if galoisKeys.parmsId ≠ ctx.keyParmsId then .error .invalidArgument
  else
    match ctx.getContextData c.parmsId, ctx.getContextData ctx.keyParmsId with
    | Option.some cd, Option.some keyCd =>
      if ¬ galoisKeys.hasKey galoisElt then .error .invalidArgument
      else if galoisElt % 2 = 0 ∨ 2 * cd.polyModulusDegree ≤ galoisElt then
        .error .invalidArgument
      else if 2 < c.polys.length then .error .invalidArgument
      else
        let n := cd.polyModulusDegree
        let k := cd.coeffModulus.length
        let permute : (Nat → Nat → Poly → Poly) → RnsPoly → RnsPoly :=
          fun f p => (List.range k).map fun j => fitPoly n (f j galoisElt (p.getD j []))
        let permuted :=
          match cd.scheme with
          | SchemeType.BFV =>
            Option.some (permute keyCd.applyGaloisFn (c.polys.getD 0 []),
              permute keyCd.applyGaloisFn (c.polys.getD 1 []))
          | SchemeType.CKKS =>
            Option.some (permute keyCd.applyGaloisNttFn (c.polys.getD 0 []),
              permute keyCd.applyGaloisNttFn (c.polys.getD 1 []))
          | SchemeType.none => Option.none
        match permuted with
        | Option.none => .error .logicError
        | Option.some pr =>
          let cMid := { c with polys := (c.polys.set 0 pr.1).set 1 (zeroRns k n) }
          switchKeyInplace ctx cMid pr.2 galoisKeys (galoisGetIndex galoisElt)
    | _, _ => .error .invalidArgument

/-- Modelled from the spec: `util::naf` (`util/numth.cpp`, not under
`src/`): the non-adjacent form of an integer as a list of signed powers
of two, driven by explicit fuel so that it is structural. -/
def nafAux : Nat → Int → List Int
  | 0, _ => []
  | fuel + 1, v =>
    if v = 0 then []
    else if v % 2 ≠ 0 then
      let z : Int := 2 - v % 4
      z :: (nafAux fuel ((v - z) / 2)).map (· * 2)
    else (nafAux fuel (v / 2)).map (· * 2)

/-- Non-adjacent form of an integer. -/
def naf (v : Int) : List Int :=
  nafAux (2 * v.natAbs + 2) v

/-- Fuel-driven embedding of `Evaluator::rotate_internal`
(evaluator.cpp:2258).  The source recursion reaches depth at most 2
(a NAF term is a signed power of two, which either has a direct key or
fails); the fuel only serves to make the recursion structural. -/
def rotateGo (ctx : Context) (galoisKeys : KSwitchKeys) :
    Nat → Ciphertext → Int → Except EvalError Ciphertext
  | 0, _, _ => .error .logicError
  | fuel + 1, c, steps =>
    match ctx.getContextData c.parmsId with
    | Option.none => .error .invalidArgument
    | Option.some cd =>
      if ¬ cd.usingBatching then .error .logicError
      else if galoisKeys.parmsId ≠ ctx.keyParmsId then .error .invalidArgument
      else if steps = 0 then .ok c
      else
        let elt := cd.getEltFromStep steps
        if galoisKeys.hasKey elt then applyGaloisInplace ctx c elt galoisKeys
        else
          let nafSteps := naf steps
          if nafSteps.length = 1 then .error .invalidArgument
          else
            nafSteps.foldlM
              (fun acc step =>
                if step.natAbs ≠ cd.polyModulusDegree / 2 then
                  rotateGo ctx galoisKeys fuel acc step
                else .ok acc)
              c

/-- Embedding of `Evaluator::rotate_internal` (evaluator.cpp:2258). -/
def rotateInternal (ctx : Context) (c : Ciphertext) (steps : Int)
    (galoisKeys : KSwitchKeys) : Except EvalError Ciphertext :=
  rotateGo ctx galoisKeys (steps.natAbs + 1) c steps

/-- A concrete parameter point used by the witness instances: degree 1,
the given primes, and trivial instantiations of the external
collaborators. -/
def testCD (scheme : SchemeType) (qs : List Nat) : ContextData where
  scheme := scheme
  coeffModulus := qs
  polyModulusDegree := 1
  plainModulus := 3
  usingBatching := true
  baseBsk := [7]
  fastbconvMTilde := fun _ => [[0], [0]]
  smMrq := fun _ => [[0]]
  fastFloor := fun _ => [[0]]
  fastbconvSk := fun _ => [[0]]
  divideRoundQLast := fun p => p
  divideRoundQLastNtt := fun p => p
  nttQ := fun _ p => p
  inttQ := fun _ p => p
  nttBsk := fun _ p => p
  inttBsk := fun _ p => p
  applyGaloisFn := fun _ _ p => p
  applyGaloisNttFn := fun _ _ p => p
  getEltFromStep := fun _ => 3
  invQLastModQ := [1]
  multiplyAddPlainScaling := fun _ p => p
  multiplySubPlainScaling := fun _ p => p

/-- A one-point BFV context for witness instances. -/
def bfvCtx : Context where
  chain := [testCD SchemeType.BFV [5]]
  keyParmsId := 0
  usingKeyswitching := true

/-- A size-2 BFV witness ciphertext over `bfvCtx`. -/
def bfvCt : Ciphertext where
  polys := [[[1]], [[2]]]
  parmsId := 0
  isNttForm := false
  scale := 1

/-- A one-point CKKS context for witness instances. -/
def ckksCtx : Context where
  chain := [testCD SchemeType.CKKS [5]]
  keyParmsId := 0
  usingKeyswitching := true

/-- A size-2 CKKS witness ciphertext over `ckksCtx` with unit scale. -/
def ckksCt : Ciphertext where
  polys := [[[1]], [[2]]]
  parmsId := 0
  isNttForm := true
  scale := 1

/-- A CKKS witness ciphertext whose squared scale exceeds the
coefficient modulus bit count of `ckksCtx`. -/
def ckksCtBig : Ciphertext where
  polys := [[[1]], [[2]]]
  parmsId := 0
  isNttForm := true
  scale := 8

/-- A two-point CKKS chain for the rescaling witness. -/
def ckksChainCtx : Context where
  chain := [testCD SchemeType.CKKS [5, 3], testCD SchemeType.CKKS [5]]
  keyParmsId := 0
  usingKeyswitching := true

/-- A size-2 witness ciphertext at the top of `ckksChainCtx`. -/
def ckksChainCt : Ciphertext where
  polys := [[[1], [2]], [[3], [4]]]
  parmsId := 0
  isNttForm := true
  scale := 6

/-- A two-point BFV chain for the scale-preservation witness. -/
def bfvChainCtx : Context where
  chain := [testCD SchemeType.BFV [5, 3], testCD SchemeType.BFV [5]]
  keyParmsId := 0
  usingKeyswitching := true

/-- A size-2 witness ciphertext at the top of `bfvChainCtx`. -/
def bfvChainCt : Ciphertext where
  polys := [[[1], [2]], [[3], [4]]]
  parmsId := 0
  isNttForm := false
  scale := 1

/-- An empty key set carrying the key `parms_id` of the witness
contexts. -/
def emptyKeys : KSwitchKeys where
  parmsId := 0
  data := []

/-- A size-3 BFV witness ciphertext over `bfvCtx`, for the subtraction
witness. -/
def bfvCt3 : Ciphertext where
  polys := [[[3]], [[4]], [[2]]]
  parmsId := 0
  isNttForm := false
  scale := 1

/-- A non-NTT witness plaintext over `bfvCtx`. -/
def bfvPlain : Plaintext where
  data := [[2]]
  parmsId := 0
  isNttForm := false
  scale := 1

/-- Coefficient `m` of RNS component `j` of polynomial `i` of a
ciphertext, with zero defaults outside the buffer. -/
def getCoeff (c : Ciphertext) (i j m : Nat) : Nat :=
  ((c.polys.getD i []).getD j []).getD m 0

/-- All coefficients of a ciphertext are reduced modulo their prime. -/
abbrev reducedCt (cd : ContextData) (c : Ciphertext) : Prop :=
  ∀ i, i < c.polys.length → ∀ j, j < cd.coeffModulus.length →
    ∀ m, m < cd.polyModulusDegree → getCoeff c i j m < cd.coeffModulus.getD j 0

/-- The frame property of plain addition and subtraction: only the
first polynomial may change; the size, the other components and the
metadata are untouched. -/
def framePreserved (c d : Ciphertext) : Prop :=
  d.polys.length = c.polys.length ∧
    (∀ i, 1 ≤ i → d.polys.getD i [] = c.polys.getD i []) ∧
    d.parmsId = c.parmsId ∧ d.isNttForm = c.isNttForm ∧ d.scale = c.scale

theorem fitPoly_length (n : Nat) (p : Poly) : (fitPoly n p).length = n := by
  simp [fitPoly]
  omega

theorem dyadicPoly_length (q : Nat) (a b : Poly) :
    (dyadicPoly q a b).length = min a.length b.length := by
  simp [dyadicPoly]

theorem dyadicPoly_reduced (q : Nat) (a b : Poly) :
    ∀ x ∈ dyadicPoly q a b, x % q = x := by
  induction a generalizing b with
  | nil => simp [dyadicPoly]
  | cons x a ih =>
    cases b with
    | nil => simp [dyadicPoly]
    | cons y b =>
      intro z hz
      simp only [dyadicPoly, List.zipWith_cons_cons, List.mem_cons] at hz
      rcases hz with rfl | hz
      · exact Nat.mod_mod_of_dvd _ dvd_rfl
      · exact ih b z (by simpa [dyadicPoly] using hz)

theorem dyadicPoly_comm (q : Nat) (a b : Poly) :
    dyadicPoly q a b = dyadicPoly q b a := by
  induction a generalizing b with
  | nil => cases b <;> simp [dyadicPoly]
  | cons x a ih =>
    cases b with
    | nil => simp [dyadicPoly]
    | cons y b =>
      simpa [dyadicPoly, Nat.mul_comm x y] using ih b

theorem rnsDyadic_comm (qs : List Nat) (a b : RnsPoly) :
    rnsDyadic qs a b = rnsDyadic qs b a := by
  induction qs generalizing a b with
  | nil => simp [rnsDyadic, List.zipWith3]
  | cons q qs ih =>
    cases a with
    | nil => cases b <;> simp [rnsDyadic, List.zipWith3]
    | cons x a =>
      cases b with
      | nil => simp [rnsDyadic, List.zipWith3]
      | cons y b =>
        simpa [rnsDyadic, List.zipWith3, dyadicPoly_comm q x y] using ih a b

theorem addPolyCoeffmod_zero (q : Nat) (w : Poly) :
    ∀ n, w.length ≤ n → (∀ x ∈ w, x % q = x) →
      addPolyCoeffmod q w (List.replicate n 0) = w := by
  induction w with
  | nil => intro n _ _; simp [addPolyCoeffmod]
  | cons x w ih =>
    intro n hn hred
    cases n with
    | zero => simp at hn
    | succ n =>
      have hx : x % q = x := hred x (by simp)
      simp only [List.replicate_succ, addPolyCoeffmod, List.zipWith_cons_cons,
        Nat.add_zero, hx]
      have := ih n (by simpa using hn) (fun y hy => hred y (by simp [hy]))
      simpa [addPolyCoeffmod] using this

theorem rnsAdd_dyadic_zero (qs : List Nat) (n : Nat) :
    ∀ a b : RnsPoly, a.length = qs.length → b.length = qs.length →
      (∀ p ∈ a, p.length = n) → (∀ p ∈ b, p.length = n) →
      rnsAdd qs (rnsDyadic qs a b) (zeroRns qs.length n) = rnsDyadic qs a b := by
  induction qs with
  | nil =>
    intro a b ha hb _ _
    simp only [List.length_nil, List.length_eq_zero] at ha hb
    subst ha; subst hb
    simp [rnsAdd, rnsDyadic, List.zipWith3, zeroRns]
  | cons q qs ih =>
    intro a b ha hb ha2 hb2
    cases a with
    | nil => simp at ha
    | cons x a =>
      cases b with
      | nil => simp at hb
      | cons y b =>
        simp only [rnsAdd, rnsDyadic, zeroRns, List.length_cons, List.replicate_succ,
          List.zipWith3] at *
        have hhead : addPolyCoeffmod q (dyadicPoly q x y) (List.replicate n 0) =
            dyadicPoly q x y := by
          apply addPolyCoeffmod_zero
          · rw [dyadicPoly_length, ha2 x (by simp), hb2 y (by simp)]
            simp
          · exact dyadicPoly_reduced q x y
        have htail := ih a b (by omega) (by omega)
          (fun p hp => ha2 p (by simp [hp])) (fun p hp => hb2 p (by simp [hp]))
        rw [hhead, htail]

theorem dyadicConvolution_length (qs : List Nat) (n : Nat) (e1 e2 : List RnsPoly)
    (destSize : Nat) : (dyadicConvolution qs n e1 e2 destSize).length = destSize := by
  simp [dyadicConvolution]

theorem behzExtend_fst_length (cd : ContextData) (p : RnsPoly) :
    (behzExtendBaseConvertToNtt cd p).1.length = cd.coeffModulus.length := by
  simp [behzExtendBaseConvertToNtt]

theorem behzExtend_snd_length (cd : ContextData) (p : RnsPoly) :
    (behzExtendBaseConvertToNtt cd p).2.length = cd.baseBsk.length := by
  simp [behzExtendBaseConvertToNtt]

theorem behzExtend_fst_members (cd : ContextData) (p : RnsPoly) :
    ∀ x ∈ (behzExtendBaseConvertToNtt cd p).1, x.length = cd.polyModulusDegree := by
  simp only [behzExtendBaseConvertToNtt, List.mem_map]
  rintro x ⟨i, _, rfl⟩
  exact fitPoly_length _ _

theorem behzExtend_snd_members (cd : ContextData) (p : RnsPoly) :
    ∀ x ∈ (behzExtendBaseConvertToNtt cd p).2, x.length = cd.polyModulusDegree := by
  simp only [behzExtendBaseConvertToNtt, List.mem_map]
  rintro x ⟨i, _, rfl⟩
  exact fitPoly_length _ _

theorem dyadicConvolution_square (qs : List Nat) (n : Nat) (a b : RnsPoly)
    (ha : a.length = qs.length) (hb : b.length = qs.length)
    (ha2 : ∀ p ∈ a, p.length = n) (hb2 : ∀ p ∈ b, p.length = n) :
    dyadicConvolution qs n [a, b] [a, b] 3 = behzCiphertextSquare qs [a, b] := by
  have h0 := rnsAdd_dyadic_zero qs n a a ha ha ha2 ha2
  have h1 := rnsAdd_dyadic_zero qs n a b ha hb ha2 hb2
  have h1b := rnsAdd_dyadic_zero qs n b a hb ha hb2 ha2
  have h2 := rnsAdd_dyadic_zero qs n b b hb hb hb2 hb2
  simp only [dyadicConvolution, behzCiphertextSquare,
    show List.range 3 = [0, 1, 2] from rfl, List.map_cons, List.map_nil,
    List.length_cons, List.length_nil]
  norm_num
  simp only [show List.range 1 = [0] from rfl, show List.range 2 = [0, 1] from rfl,
    List.foldl_cons, List.foldl_nil, List.getD]
  norm_num [h0, h1, h1b, h2, rnsDyadic_comm qs a b]

/-- C1: for every pair of ciphertexts accepted by `multiply` (both BFV
non-NTT and CKKS NTT dispatch paths), the resulting ciphertext has size
exactly `s1 + s2 - 1`. -/
theorem multiply_size_law (ctx : Context) (c1 c2 d : Ciphertext)
    (h : multiplyInplace ctx c1 c2 = Except.ok d) :
    d.polys.length = c1.polys.length + c2.polys.length - 1 := by
  unfold multiplyInplace bfvMultiply ckksMultiply at h
  repeat' split at h
  all_goals (try dsimp only at h)
  all_goals (try split_ifs at h)
  all_goals
    first
      | exact Except.noConfusion h
      | (simp only [Except.ok.injEq] at h
         subst h
         simp [dyadicConvolution_length, List.length_zip])

/-- C1 witness: a concrete accepted BFV multiplication of two size-2
ciphertexts produces a size-3 result. -/
theorem multiply_size_law_witness :
    multiplyInplace bfvCtx bfvCt bfvCt =
      Except.ok (Ciphertext.mk [[[0]], [[0]], [[0]]] 0 false 1) ∧
      (Ciphertext.mk [[[0]], [[0]], [[0]]] 0 false 1).polys.length =
        bfvCt.polys.length + bfvCt.polys.length - 1 := by
  refine ⟨rfl, multiply_size_law bfvCtx bfvCt bfvCt _ rfl⟩

/-- Helper for C4: `bfv_square` computes exactly `bfv_multiply(c, c)`,
for every size: sizes other than 2 delegate outright, and for size 2 the
Karatsuba-style kernel agrees with the general dyadic convolution. -/
theorem bfvSquare_eq_bfvMultiply (ctx : Context) (c : Ciphertext) :
    bfvSquare ctx c = bfvMultiply ctx c c := by
  unfold bfvSquare
  by_cases hn : c.isNttForm
  · unfold bfvMultiply
    simp [hn]
  · simp only [hn, if_false, Bool.false_eq_true]
    cases hcd : ctx.getContextData c.parmsId with
    | none =>
      unfold bfvMultiply
      simp [hn, hcd]
    | some cd =>
      by_cases hlen : c.polys.length = 2
      · simp only [hlen, ne_eq, not_true_eq_false, if_false]
        obtain ⟨p0, p1, hp⟩ := List.length_eq_two.mp hlen
        unfold bfvMultiply
        simp only [hn, Bool.or_self, if_false, Bool.false_eq_true, hcd, hp,
          List.map_cons, List.map_nil, List.length_cons, List.length_nil]
        norm_num
        rw [dyadicConvolution_square cd.coeffModulus cd.polyModulusDegree
          (behzExtendBaseConvertToNtt cd p0).1 (behzExtendBaseConvertToNtt cd p1).1
          (behzExtend_fst_length cd p0) (behzExtend_fst_length cd p1)
          (behzExtend_fst_members cd p0) (behzExtend_fst_members cd p1)]
        rw [dyadicConvolution_square cd.baseBsk cd.polyModulusDegree
          (behzExtendBaseConvertToNtt cd p0).2 (behzExtendBaseConvertToNtt cd p1).2
          (behzExtend_snd_length cd p0) (behzExtend_snd_length cd p1)
          (behzExtend_snd_members cd p0) (behzExtend_snd_members cd p1)]
      · simp [hlen]

/-- C4: for every BFV ciphertext `c`, `square(c)` produces exactly the
same ciphertext (data and metadata, or exactly the same rejection) as
`multiply(c, c)`: the size-2 Karatsuba-style specialization `c0·c0`,
`2·c0·c1`, `c1·c1` agrees with the general dyadic convolution, and every
other size delegates to `multiply(c, c)`. -/
theorem square_equals_multiply (ctx : Context) (c : Ciphertext)
    (hS : ctx.firstScheme = SchemeType.BFV) :
    squareInplace ctx c = multiplyInplace ctx c c := by
  unfold squareInplace multiplyInplace
  rw [hS]
  by_cases hv : ciphertextValid ctx c
  · simp [hv, bfvSquare_eq_bfvMultiply]
  · simp [hv]

/-- C4 witness: the equality instantiated on a concrete size-2 BFV
ciphertext. -/
theorem square_equals_multiply_witness :
    squareInplace bfvCtx bfvCt = multiplyInplace bfvCtx bfvCt bfvCt :=
  square_equals_multiply bfvCtx bfvCt rfl

/-- C3: for every pair of CKKS NTT-form ciphertexts accepted by
`multiply`, the result's scale is `c1.scale * c2.scale`; and whenever
the truncated base-2 logarithm of the scale product reaches the total
coefficient modulus bit count, `multiply` rejects with an
invalid-argument error and produces no result. -/
theorem ckks_multiply_scale_law (ctx : Context) (c1 c2 : Ciphertext) (cd : ContextData)
    (hS : ctx.firstScheme = SchemeType.CKKS) :
    (∀ d, multiplyInplace ctx c1 c2 = Except.ok d → d.scale = c1.scale * c2.scale) ∧
    (ctx.getContextData c1.parmsId = Option.some cd →
      (totalCoeffModulusBitCount cd : Int) ≤ castIntLog2 (c1.scale * c2.scale) →
      multiplyInplace ctx c1 c2 = Except.error EvalError.invalidArgument) := by
  constructor
  · intro d h
    unfold multiplyInplace ckksMultiply at h
    simp only [hS] at h
    repeat' split at h
    all_goals
      first
        | exact Except.noConfusion h
        | (simp only [Except.ok.injEq] at h
           subst h
           rfl)
  · intro hcd hbound
    unfold multiplyInplace ckksMultiply
    simp only [hS, hcd]
    split_ifs with h1 h2 h3 h4 h5
    any_goals rfl
    exact absurd (Or.inr hbound) h5

/-- C3 witness: a concrete accepted CKKS multiplication whose result
scale is the product of the operand scales, and a concrete rejected one
whose scale product exceeds the modulus bit count. -/
theorem ckks_multiply_scale_law_witness :
    (multiplyInplace ckksCtx ckksCt ckksCt =
        Except.ok (Ciphertext.mk [[[1]], [[4]], [[4]]] 0 true 1) ∧
      (Ciphertext.mk [[[1]], [[4]], [[4]]] 0 true 1).scale = ckksCt.scale * ckksCt.scale) ∧
    multiplyInplace ckksCtx ckksCtBig ckksCtBig = Except.error EvalError.invalidArgument := by
  have hmul : multiplyInplace ckksCtx ckksCt ckksCt =
      Except.ok (Ciphertext.mk [[[1]], [[4]], [[4]]] 0 true 1) := by
    simp only [multiplyInplace, ckksMultiply,
      show ciphertextValid ckksCtx ckksCt = true from by decide,
      show ckksCtx.getContextData ckksCt.parmsId =
        Option.some (testCD SchemeType.CKKS [5]) from rfl,
      show Context.firstScheme ckksCtx = SchemeType.CKKS from rfl]
    norm_num [ckksCt]
    decide
  refine ⟨⟨hmul, ?_⟩, ?_⟩
  · exact (ckks_multiply_scale_law ckksCtx ckksCt ckksCt
      (testCD SchemeType.CKKS [5]) rfl).1 _ hmul
  · refine (ckks_multiply_scale_law ckksCtx ckksCtBig ckksCtBig
      (testCD SchemeType.CKKS [5]) rfl).2 rfl ?_
    have h8 : ckksCtBig.scale * ckksCtBig.scale = (64 : ℚ) := by norm_num [ckksCtBig]
    rw [h8]
    decide

/-- C2 counterexample: on a concrete non-empty CKKS input vector,
`multiply_many` rejects with a logic error, not with the invalid-argument
error the claim states. -/
theorem multiply_many_nonbfv_counterexample :
    multiplyMany ckksCtx [ckksCt] emptyKeys = Except.error EvalError.logicError ∧
    multiplyMany ckksCtx [ckksCt] emptyKeys ≠ Except.error EvalError.invalidArgument := by
  exact ⟨rfl, by decide⟩

/-- C2 (amended): for every non-empty vector of ciphertexts whose scheme
is not BFV, `multiply_many` rejects the operation, but with a logic
error (the internal-error kind), not an invalid-argument error. -/
theorem multiply_many_nonbfv_logic_error (ctx : Context) (c0 : Ciphertext)
    (rest : List Ciphertext) (relinKeys : KSwitchKeys) (cd : ContextData)
    (hcd : ctx.getContextData c0.parmsId = Option.some cd)
    (hs : cd.scheme ≠ SchemeType.BFV) :
    multiplyMany ctx (c0 :: rest) relinKeys = Except.error EvalError.logicError := by
  unfold multiplyMany
  simp only [hcd]
  rw [if_pos hs]

/-- C2 witness for the amended claim: a concrete two-element CKKS vector
is rejected with a logic error. -/
theorem multiply_many_nonbfv_logic_error_witness :
    multiplyMany ckksCtx [ckksCt, ckksCt] emptyKeys =
      Except.error EvalError.logicError :=
  multiply_many_nonbfv_logic_error ckksCtx ckksCt [ckksCt] emptyKeys
    (testCD SchemeType.CKKS [5]) rfl (by decide)

/-- Helper for C5: when the next parameter point is CKKS,
`mod_switch_scale_to_next` divides the scale by the dropped prime. -/
theorem msstn_ckks_scale (ctx : Context) (enc dest d : Ciphertext)
    (cd nextCd : ContextData)
    (hcd : ctx.getContextData enc.parmsId = Option.some cd)
    (hnext : ctx.getContextData (enc.parmsId + 1) = Option.some nextCd)
    (hck : nextCd.scheme = SchemeType.CKKS)
    (h : modSwitchScaleToNext ctx enc dest = Except.ok d) :
    d.scale = enc.scale / (cd.coeffModulus.getLastD 0 : ℚ) := by
  unfold modSwitchScaleToNext at h
  simp only [hcd, hnext, hck] at h
  split_ifs at h
  all_goals
    first
      | contradiction
      | exact Except.noConfusion h
      | (simp only [Except.ok.injEq] at h
         subst h
         rfl)

/-- Helper for C5: when the next parameter point is BFV,
`mod_switch_scale_to_next` never writes the destination scale. -/
theorem msstn_bfv_scale (ctx : Context) (enc dest d : Ciphertext)
    (cd nextCd : ContextData)
    (hcd : ctx.getContextData enc.parmsId = Option.some cd)
    (hnext : ctx.getContextData (enc.parmsId + 1) = Option.some nextCd)
    (hbfv : nextCd.scheme = SchemeType.BFV)
    (h : modSwitchScaleToNext ctx enc dest = Except.ok d) :
    d.scale = dest.scale := by
  unfold modSwitchScaleToNext at h
  simp only [hcd, hnext, hbfv] at h
  split_ifs at h
  all_goals
    first
      | contradiction
      | exact Except.noConfusion h
      | (simp only [Except.ok.injEq] at h
         subst h
         rfl)

/-- C5: for every CKKS ciphertext with a next parameter point,
`mod_switch_scale_to_next` (and `rescale_to_next`, which forwards to it)
sets the destination scale to the source scale divided by the dropped
last prime; for BFV it leaves the destination's scale untouched (so an
in-place call keeps the ciphertext's scale). -/
theorem rescale_scale_law (ctx : Context) (enc dest d : Ciphertext)
    (cd nextCd : ContextData)
    (hcd : ctx.getContextData enc.parmsId = Option.some cd)
    (hnext : ctx.getContextData (enc.parmsId + 1) = Option.some nextCd) :
    (nextCd.scheme = SchemeType.CKKS →
      modSwitchScaleToNext ctx enc dest = Except.ok d →
      d.scale = enc.scale / (cd.coeffModulus.getLastD 0 : ℚ)) ∧
    (nextCd.scheme = SchemeType.BFV →
      modSwitchScaleToNext ctx enc dest = Except.ok d →
      d.scale = dest.scale) ∧
    (ctx.firstScheme = SchemeType.CKKS → nextCd.scheme = SchemeType.CKKS →
      rescaleToNext ctx enc dest = Except.ok d →
      d.scale = enc.scale / (cd.coeffModulus.getLastD 0 : ℚ)) := by
  refine ⟨fun hck h => msstn_ckks_scale ctx enc dest d cd nextCd hcd hnext hck h,
    fun hbfv h => msstn_bfv_scale ctx enc dest d cd nextCd hcd hnext hbfv h,
    fun hS hck h => ?_⟩
  unfold rescaleToNext at h
  simp only [hS] at h
  split_ifs at h
  all_goals
    first
      | exact Except.noConfusion h
      | exact msstn_ckks_scale ctx enc dest d cd nextCd hcd hnext hck h

/-- C5 witness: a concrete two-level CKKS rescale divides the scale by
the dropped prime 3 (also via `rescale_to_next`), and a concrete
two-level BFV scaling modulus switch keeps the destination scale. -/
theorem rescale_scale_law_witness :
    (modSwitchScaleToNext ckksChainCtx ckksChainCt ckksChainCt =
        Except.ok (Ciphertext.mk [[[1]], [[3]]] 1 true 2) ∧
      (Ciphertext.mk [[[1]], [[3]]] 1 true 2).scale =
        ckksChainCt.scale / ((testCD SchemeType.CKKS [5, 3]).coeffModulus.getLastD 0 : ℚ)) ∧
    (rescaleToNext ckksChainCtx ckksChainCt ckksChainCt =
        Except.ok (Ciphertext.mk [[[1]], [[3]]] 1 true 2)) ∧
    (modSwitchScaleToNext bfvChainCtx bfvChainCt bfvChainCt =
        Except.ok (Ciphertext.mk [[[1]], [[3]]] 1 false 1) ∧
      (Ciphertext.mk [[[1]], [[3]]] 1 false 1).scale = bfvChainCt.scale) := by
  have hck : modSwitchScaleToNext ckksChainCtx ckksChainCt ckksChainCt =
      Except.ok (Ciphertext.mk [[[1]], [[3]]] 1 true 2) := by
    simp only [modSwitchScaleToNext,
      show ckksChainCtx.getContextData ckksChainCt.parmsId =
        Option.some (testCD SchemeType.CKKS [5, 3]) from rfl,
      show ckksChainCtx.getContextData (ckksChainCt.parmsId + 1) =
        Option.some (testCD SchemeType.CKKS [5]) from rfl]
    norm_num [ckksChainCt, testCD]
    decide
  have hre : rescaleToNext ckksChainCtx ckksChainCt ckksChainCt =
      modSwitchScaleToNext ckksChainCtx ckksChainCt ckksChainCt := by
    unfold rescaleToNext
    rw [if_neg (by decide), if_neg (by decide)]
    rfl
  refine ⟨⟨hck, ?_⟩, hre.trans hck, rfl, ?_⟩
  · exact (rescale_scale_law ckksChainCtx ckksChainCt ckksChainCt _
      (testCD SchemeType.CKKS [5, 3]) (testCD SchemeType.CKKS [5]) rfl rfl).1 rfl hck
  · exact (rescale_scale_law bfvChainCtx bfvChainCt bfvChainCt _
      (testCD SchemeType.BFV [5, 3]) (testCD SchemeType.BFV [5]) rfl rfl).2.1 rfl rfl

theorem getD_append_left {α : Type} (l1 l2 : List α) (i : Nat) (d : α)
    (h : i < l1.length) : (l1 ++ l2).getD i d = l1.getD i d := by
  simp [List.getD_eq_getElem?_getD, List.getElem?_append_left h]

theorem getD_append_right {α : Type} (l1 l2 : List α) (i : Nat) (d : α)
    (h : l1.length ≤ i) : (l1 ++ l2).getD i d = l2.getD (i - l1.length) d := by
  simp [List.getD_eq_getElem?_getD, List.getElem?_append_right h]

theorem getD_drop {α : Type} (l : List α) (n i : Nat) (d : α) :
    (l.drop n).getD i d = l.getD (n + i) d := by
  simp [List.getD_eq_getElem?_getD, List.getElem?_drop]

theorem getD_map {α β : Type} (f : α → β) (l : List α) (i : Nat) (da : α) (db : β)
    (h : i < l.length) : (l.map f).getD i db = f (l.getD i da) := by
  rw [List.getD_eq_getElem?_getD, List.getD_eq_getElem?_getD, List.getElem?_map,
    List.getElem?_eq_getElem h]
  rfl

theorem getD_mem {α : Type} (l : List α) (i : Nat) (d : α) (h : i < l.length) :
    l.getD i d ∈ l := by
  rw [List.getD_eq_getElem?_getD, List.getElem?_eq_getElem h]
  exact List.getElem_mem h

theorem zipWith_getD {α β γ : Type} (f : α → β → γ) (a : List α) (b : List β)
    (i : Nat) (da : α) (db : β) (dc : γ) (ha : i < a.length) (hb : i < b.length) :
    (List.zipWith f a b).getD i dc = f (a.getD i da) (b.getD i db) := by
  induction a generalizing b i with
  | nil => simp at ha
  | cons x a ih =>
    cases b with
    | nil => simp at hb
    | cons y b =>
      cases i with
      | zero => rfl
      | succ i =>
        simp only [List.zipWith_cons_cons, List.getD_cons_succ]
        exact ih b i (by simpa using ha) (by simpa using hb)

theorem zipWith3_getD {α β γ δ : Type} (f : α → β → γ → δ) (a : List α) (b : List β)
    (c : List γ) (i : Nat) (da : α) (db : β) (dc : γ) (dd : δ)
    (ha : i < a.length) (hb : i < b.length) (hc : i < c.length) :
    (List.zipWith3 f a b c).getD i dd = f (a.getD i da) (b.getD i db) (c.getD i dc) := by
  induction a generalizing b c i with
  | nil => simp at ha
  | cons x a ih =>
    cases b with
    | nil => simp at hb
    | cons y b =>
      cases c with
      | nil => simp at hc
      | cons z c =>
        cases i with
        | zero => rfl
        | succ i =>
          simp only [List.zipWith3, List.getD_cons_succ]
          exact ih b c i (by simpa using ha) (by simpa using hb) (by simpa using hc)

theorem subCoeff_int (q u v : Nat) (_hu : u < q) (hv : v < q) :
    ((subCoeff q u v : Nat) : Int) = ((u : Int) - v) % q := by
  unfold subCoeff
  rw [Nat.mod_eq_of_lt hv]
  have hvq : v ≤ q := Nat.le_of_lt hv
  push_cast [Nat.cast_sub hvq]
  rw [show (u : Int) + ((q : Int) - v) = (u : Int) - v + (q : Int) * 1 by ring]
  rw [Int.add_mul_emod_self_left]

theorem negCoeff_int (q v : Nat) (hv : v < q) :
    ((negCoeff q v : Nat) : Int) = (-(v : Int)) % q := by
  unfold negCoeff
  rw [Nat.mod_eq_of_lt hv]
  by_cases h0 : v = 0
  · subst h0
    simp
  · rw [if_neg h0]
    have h1 : (-(v : Int)) % (q : Int) = ((q : Int) - v) % q := by
      rw [show (q : Int) - v = -(v : Int) + (q : Int) * 1 by ring,
        Int.add_mul_emod_self_left]
    have h2 : ((q : Int) - (v : Int)) % (q : Int) = (q : Int) - v := by
      apply Int.emod_eq_of_lt
      · omega
      · have := Nat.pos_of_ne_zero h0
        omega
    rw [h1, h2]
    push_cast [Nat.cast_sub (Nat.le_of_lt hv)]
    ring

/-- Shape facts packaged by the buffer validity check. -/
theorem ciphertextValid_shape (ctx : Context) (c : Ciphertext) (cd : ContextData)
    (hcd : ctx.getContextData c.parmsId = Option.some cd)
    (hv : ciphertextValid ctx c = true) :
    2 ≤ c.polys.length ∧
      ∀ p ∈ c.polys, p.length = cd.coeffModulus.length ∧
        ∀ comp ∈ p, comp.length = cd.polyModulusDegree := by
  unfold ciphertextValid at hv
  rw [hcd] at hv
  simp only [Bool.and_eq_true, decide_eq_true_eq, List.all_eq_true] at hv
  exact ⟨hv.1, fun p hp => ⟨(hv.2 p hp).1, fun comp hcomp => (hv.2 p hp).2 comp hcomp⟩⟩

/-- C6: for ciphertexts accepted by `sub` with sizes `s1 < s2`, the
result has size `s2`; on the overlap every coefficient is the difference
of the operands modulo its prime, and on the tail every coefficient is
the negation of the second operand's coefficient modulo its prime. -/
theorem sub_sizes_and_coefficients (ctx : Context) (c1 c2 d : Ciphertext)
    (cd : ContextData)
    (hcd : ctx.getContextData c1.parmsId = Option.some cd)
    (hlt : c1.polys.length < c2.polys.length)
    (hred1 : reducedCt cd c1) (hred2 : reducedCt cd c2)
    (h : subInplace ctx c1 c2 = Except.ok d) :
    d.polys.length = c2.polys.length ∧
      (∀ i j m, i < c1.polys.length → j < cd.coeffModulus.length →
        m < cd.polyModulusDegree →
        (getCoeff d i j m : Int) =
          ((getCoeff c1 i j m : Int) - (getCoeff c2 i j m : Int)) %
            (cd.coeffModulus.getD j 0 : Int)) ∧
      (∀ i j m, c1.polys.length ≤ i → i < c2.polys.length →
        j < cd.coeffModulus.length → m < cd.polyModulusDegree →
        (getCoeff d i j m : Int) =
          (-(getCoeff c2 i j m : Int)) % (cd.coeffModulus.getD j 0 : Int)) := by
  unfold subInplace at h
  split_ifs at h with hv1 hv2 hp hn hsc
  simp only [hcd, hlt, if_true, Except.ok.injEq] at h
  subst h
  have hpeq : c1.parmsId = c2.parmsId := not_not.mp hp
  have hpid2 : ctx.getContextData c2.parmsId = Option.some cd := by
    rw [← hpeq]
    exact hcd
  obtain ⟨hs1, hshape1⟩ := ciphertextValid_shape ctx c1 cd hcd hv1
  obtain ⟨hs2, hshape2⟩ := ciphertextValid_shape ctx c2 cd hpid2 hv2
  set qs := cd.coeffModulus with hqs
  set k := cd.coeffModulus.length with hk
  set nn := cd.polyModulusDegree with hnn
  have hoverlap : (List.zipWith (rnsSub qs) c1.polys c2.polys).length =
      c1.polys.length := by
    rw [List.length_zipWith]
    omega
  refine ⟨?_, ?_, ?_⟩
  · simp only [List.length_append, hoverlap, List.length_map, List.length_drop]
    omega
  · intro i j m hi hj hm
    have hi2 : i < c2.polys.length := Nat.lt_trans hi hlt
    have hp1 := hshape1 (c1.polys.getD i []) (getD_mem _ i [] hi)
    have hp2 := hshape2 (c2.polys.getD i []) (getD_mem _ i [] hi2)
    have hc1 := hp1.2 ((c1.polys.getD i []).getD j []) (getD_mem _ j [] (by omega))
    have hc2 := hp2.2 ((c2.polys.getD i []).getD j []) (getD_mem _ j [] (by omega))
    unfold getCoeff
    rw [getD_append_left _ _ i [] (by omega),
      zipWith_getD (rnsSub qs) c1.polys c2.polys i [] [] [] hi hi2]
    unfold rnsSub
    rw [zipWith3_getD subPolyCoeffmod qs (c1.polys.getD i []) (c2.polys.getD i [])
      j 0 [] [] [] hj (by omega) (by omega)]
    unfold subPolyCoeffmod
    rw [zipWith_getD (subCoeff (qs.getD j 0)) _ _ m 0 0 0 (by omega) (by omega)]
    exact subCoeff_int _ _ _ (hred1 i hi j hj m hm) (hred2 i hi2 j hj m hm)
  · intro i j m hi1 hi2 hj hm
    have hp2 := hshape2 (c2.polys.getD i []) (getD_mem _ i [] hi2)
    have hc2 := hp2.2 ((c2.polys.getD i []).getD j []) (getD_mem _ j [] (by omega))
    unfold getCoeff
    rw [getD_append_right _ _ i [] (by omega), hoverlap,
      getD_map (rnsNeg qs) _ _ [] [] (by simp [List.length_drop]; omega),
      getD_drop, show c1.polys.length + (i - c1.polys.length) = i by omega]
    unfold rnsNeg
    rw [zipWith_getD negPolyCoeffmod qs (c2.polys.getD i []) j 0 [] [] hj (by omega)]
    unfold negPolyCoeffmod
    rw [getD_map (negCoeff (qs.getD j 0)) _ _ 0 0 (by omega)]
    exact negCoeff_int _ _ (hred2 i hi2 j hj m hm)

/-- C6 witness: subtraction of a concrete size-3 ciphertext from a
size-2 one yields size 3, the overlap difference `(1 - 3) mod 5 = 3`,
and the negated tail `(-2) mod 5 = 3`. -/
theorem sub_sizes_and_coefficients_witness :
    subInplace bfvCtx bfvCt bfvCt3 =
      Except.ok (Ciphertext.mk [[[3]], [[3]], [[3]]] 0 false 1) ∧
    (Ciphertext.mk [[[3]], [[3]], [[3]]] 0 false 1).polys.length =
      bfvCt3.polys.length ∧
    (getCoeff (Ciphertext.mk [[[3]], [[3]], [[3]]] 0 false 1) 0 0 0 : Int) =
      ((getCoeff bfvCt 0 0 0 : Int) - (getCoeff bfvCt3 0 0 0 : Int)) %
        ((testCD SchemeType.BFV [5]).coeffModulus.getD 0 0 : Int) ∧
    (getCoeff (Ciphertext.mk [[[3]], [[3]], [[3]]] 0 false 1) 2 0 0 : Int) =
      (-(getCoeff bfvCt3 2 0 0 : Int)) %
        ((testCD SchemeType.BFV [5]).coeffModulus.getD 0 0 : Int) := by
  have hsub : subInplace bfvCtx bfvCt bfvCt3 =
      Except.ok (Ciphertext.mk [[[3]], [[3]], [[3]]] 0 false 1) := by
    simp only [subInplace,
      show ciphertextValid bfvCtx bfvCt = true from by decide,
      show ciphertextValid bfvCtx bfvCt3 = true from by decide,
      show areClose bfvCt.scale bfvCt3.scale = true from by
        simp only [areClose, bfvCt, bfvCt3, decide_eq_true_eq]
        norm_num,
      show bfvCtx.getContextData bfvCt.parmsId =
        Option.some (testCD SchemeType.BFV [5]) from rfl]
    norm_num [bfvCt, bfvCt3]
    decide
  have hthm := sub_sizes_and_coefficients bfvCtx bfvCt bfvCt3
    (Ciphertext.mk [[[3]], [[3]], [[3]]] 0 false 1) (testCD SchemeType.BFV [5])
    rfl (by decide) (by decide) (by decide) hsub
  exact ⟨hsub, hthm.1, hthm.2.1 0 0 0 (by decide) (by decide) (by decide),
    hthm.2.2 2 0 0 (by decide) (by decide) (by decide) (by decide)⟩

theorem getD_set_ne {α : Type} (l : List α) (x : α) (i j : Nat) (d : α)
    (h : i ≠ j) : (l.set i x).getD j d = l.getD j d := by
  simp [List.getD_eq_getElem?_getD, List.getElem?_set_ne h]

/-- C7: for every BFV ciphertext and plaintext accepted by `add_plain`
and `sub_plain`, only the first polynomial is modified: all components
`c_1 .. c_{s-1}` and the metadata (size, `parms_id`, `is_ntt_form`,
`scale`) are unchanged. -/
theorem plain_frame_aux (c : Ciphertext) (w : RnsPoly) :
    framePreserved c { c with polys := c.polys.set 0 w } :=
  ⟨by simp, fun i hi => getD_set_ne _ _ 0 i [] (by omega), rfl, rfl, rfl⟩

theorem plain_add_sub_frame (ctx : Context) (c : Ciphertext) (p : Plaintext)
    (cd : ContextData) (d1 d2 : Ciphertext)
    (hcd : ctx.getContextData c.parmsId = Option.some cd)
    (hs : cd.scheme = SchemeType.BFV)
    (h1 : addPlainInplace ctx c p = Except.ok d1)
    (h2 : subPlainInplace ctx c p = Except.ok d2) :
    framePreserved c d1 ∧ framePreserved c d2 := by
  constructor
  · unfold addPlainInplace at h1
    simp only [hcd, hs] at h1
    split_ifs at h1
    all_goals
      first
        | exact Except.noConfusion h1
        | (simp only [Except.ok.injEq] at h1
           subst h1
           exact plain_frame_aux c _)
  · unfold subPlainInplace at h2
    simp only [hcd, hs] at h2
    split_ifs at h2
    all_goals
      first
        | exact Except.noConfusion h2
        | (simp only [Except.ok.injEq] at h2
           subst h2
           exact plain_frame_aux c _)

/-- C7 witness: a concrete BFV plain addition and subtraction, with the
frame instantiated at component 1. -/
theorem plain_add_sub_frame_witness :
    addPlainInplace bfvCtx bfvCt bfvPlain = Except.ok bfvCt ∧
    subPlainInplace bfvCtx bfvCt bfvPlain = Except.ok bfvCt ∧
    framePreserved bfvCt bfvCt := by
  have hclose : areClose bfvCt.scale bfvPlain.scale = true := by
    simp only [areClose, bfvCt, bfvPlain, decide_eq_true_eq]
    norm_num
  have hadd : addPlainInplace bfvCtx bfvCt bfvPlain = Except.ok bfvCt := by
    simp only [addPlainInplace,
      show ciphertextValid bfvCtx bfvCt = true from by decide,
      show plaintextValid bfvCtx bfvPlain = true from by decide,
      show bfvCtx.getContextData bfvCt.parmsId =
        Option.some (testCD SchemeType.BFV [5]) from rfl, hclose]
    norm_num [bfvCt, bfvPlain, testCD]
    decide
  have hsub : subPlainInplace bfvCtx bfvCt bfvPlain = Except.ok bfvCt := by
    simp only [subPlainInplace,
      show ciphertextValid bfvCtx bfvCt = true from by decide,
      show plaintextValid bfvCtx bfvPlain = true from by decide,
      show bfvCtx.getContextData bfvCt.parmsId =
        Option.some (testCD SchemeType.BFV [5]) from rfl, hclose]
    norm_num [bfvCt, bfvPlain, testCD]
    decide
  exact ⟨hadd, hsub,
    (plain_add_sub_frame bfvCtx bfvCt bfvPlain (testCD SchemeType.BFV [5])
      bfvCt bfvCt rfl rfl hadd hsub).1⟩

/-- C8: with a valid ciphertext and Galois keys at the key parameter
point, `apply_galois` rejects with an invalid-argument error whenever
the element is even, or at least `2N`, or the size exceeds 2, or the key
for the element is absent; the functional embedding returns an error, so
the ciphertext is not mutated. -/
theorem apply_galois_rejections (ctx : Context) (c : Ciphertext) (galoisElt : Nat)
    (gk : KSwitchKeys) (cd : ContextData)
    (hcd : ctx.getContextData c.parmsId = Option.some cd)
    (hvalid : ciphertextValid ctx c = true)
    (hkp : gk.parmsId = ctx.keyParmsId)
    (hbad : galoisElt % 2 = 0 ∨ 2 * cd.polyModulusDegree ≤ galoisElt ∨
      2 < c.polys.length ∨ gk.hasKey galoisElt = false) :
    applyGaloisInplace ctx c galoisElt gk = Except.error EvalError.invalidArgument := by
  unfold applyGaloisInplace
  rw [if_neg (by simp [hvalid]), if_neg (by simp [hkp])]
  cases hkey : ctx.getContextData ctx.keyParmsId with
  | none => simp [hcd, hkey]
  | some keyCd =>
    simp only [hcd, hkey]
    by_cases hk : gk.hasKey galoisElt
    · rw [if_neg (by simp [hk])]
      by_cases he : galoisElt % 2 = 0 ∨ 2 * cd.polyModulusDegree ≤ galoisElt
      · rw [if_pos he]
      · rw [if_neg he]
        have hsize : 2 < c.polys.length := by
          rcases hbad with hb | hb | hb | hb
          · exact absurd (Or.inl hb) he
          · exact absurd (Or.inr hb) he
          · exact hb
          · rw [hk] at hb
            cases hb
        rw [if_pos hsize]
    · rw [if_pos (by simpa using hk)]

/-- C8 witness: the even element 2 with an empty key set is rejected
with an invalid argument error on a concrete valid ciphertext. -/
theorem apply_galois_rejections_witness :
    applyGaloisInplace bfvCtx bfvCt 2 emptyKeys =
      Except.error EvalError.invalidArgument :=
  apply_galois_rejections bfvCtx bfvCt 2 emptyKeys (testCD SchemeType.BFV [5])
    rfl (by decide) rfl (Or.inl (by decide))

/-- C9: with resolvable parameter ids, `exponentiate` rejects exponent 0
with an invalid-argument error (producing no result, so the ciphertext
is untouched), returns the ciphertext exactly unchanged for exponent 1,
and for every exponent at least 2 calls `multiply_many` on the vector of
that many copies. -/
theorem exponentiate_contract (ctx : Context) (c : Ciphertext)
    (relinKeys : KSwitchKeys)
    (h1 : (ctx.getContextData c.parmsId).isNone = false)
    (h2 : (ctx.getContextData relinKeys.parmsId).isNone = false) :
    exponentiateInplace ctx c 0 relinKeys = Except.error EvalError.invalidArgument ∧
    exponentiateInplace ctx c 1 relinKeys = Except.ok c ∧
    ∀ e, 2 ≤ e → exponentiateInplace ctx c e relinKeys =
      multiplyMany ctx (List.replicate e c) relinKeys := by
  refine ⟨?_, ?_, fun e he => ?_⟩
  · unfold exponentiateInplace
    rw [if_neg (by simp [h1]), if_neg (by simp [h2]), if_pos rfl]
  · unfold exponentiateInplace
    rw [if_neg (by simp [h1]), if_neg (by simp [h2]), if_neg (by omega), if_pos rfl]
  · unfold exponentiateInplace
    rw [if_neg (by simp [h1]), if_neg (by simp [h2]), if_neg (by omega),
      if_neg (by omega)]

/-- C9 witness: the contract instantiated on a concrete BFV ciphertext
and exponent 2. -/
theorem exponentiate_contract_witness :
    exponentiateInplace bfvCtx bfvCt 0 emptyKeys =
      Except.error EvalError.invalidArgument ∧
    exponentiateInplace bfvCtx bfvCt 1 emptyKeys = Except.ok bfvCt ∧
    exponentiateInplace bfvCtx bfvCt 2 emptyKeys =
      multiplyMany bfvCtx (List.replicate 2 bfvCt) emptyKeys := by
  have h := exponentiate_contract bfvCtx bfvCt emptyKeys rfl rfl
  exact ⟨h.1, h.2.1, h.2.2 2 (by omega)⟩

/-- C10: for every ciphertext at a batching-enabled parameter point and
every Galois key set at the key parameter point, `rotate` with steps 0
returns immediately with the ciphertext exactly unchanged; no key lookup
happens, so it succeeds even for a key set with no keys at all. -/
theorem rotate_zero_steps_noop (ctx : Context) (c : Ciphertext)
    (gk : KSwitchKeys) (cd : ContextData)
    (hcd : ctx.getContextData c.parmsId = Option.some cd)
    (hbatch : cd.usingBatching = true)
    (hkp : gk.parmsId = ctx.keyParmsId) :
    rotateInternal ctx c 0 gk = Except.ok c := by
  unfold rotateInternal rotateGo
  simp [hcd, hbatch, hkp]

/-- C10 witness: a concrete zero-step rotation with an empty Galois key
set succeeds and returns the ciphertext unchanged. -/
theorem rotate_zero_steps_noop_witness :
    rotateInternal bfvCtx bfvCt 0 emptyKeys = Except.ok bfvCt :=
  rotate_zero_steps_noop bfvCtx bfvCt emptyKeys (testCD SchemeType.BFV [5])
    rfl rfl rfl

end SealEval
